import Mathlib

/-!
Verification development for the `dutree` disk-usage tree renderer
(`src/lib.rs`).  The Rust source is shallowly embedded: `u64` values are
natural numbers with wrapping (`% 2^64`) made explicit where the machine
arithmetic can wrap, fallible operations (Rust panics such as integer
division by zero or byte-slicing a string off a character boundary) are
modelled with `Option`, `none` standing for a panic.  Filesystem access —
an external boundary per the specification — is modelled by a tree value
`FS` carrying, for every path, the name and the measured byte count that
the metadata accessor would return.
-/

namespace Dutree

/-- The constant `2^64`, the modulus of Rust `u64` arithmetic. -/
def U64 : Nat := 2 ^ 64

/-- Wrapping `u64` addition (`a + b` on `u64` in release mode). -/
def add64 (a b : Nat) : Nat := (a + b) % U64

/-- Wrapping `u64` multiplication (`a * b` on `u64` in release mode). -/
def mul64 (a b : Nat) : Nat := (a * b) % U64

/-- Wrapping `u64` subtraction (`a - b` on `u64` in release mode);
intended for `b ≤ 2^64`. -/
def sub64 (a b : Nat) : Nat := (a + U64 - b) % U64

/-- Wrapping `u8` subtraction of one (`d - 1` on `u8` in release mode),
used for the recursion-depth counter. -/
def sub8one (d : Nat) : Nat := (d + 255) % 256

/-- Wrapping `u8` addition of one (`cfg.depth + 1` in `run`). -/
def add8one (d : Nat) : Nat := (d + 1) % 256

/-- Right-aligned rendering of a number in a 3-character field, the
`{:3}` format used for the percentage (numbers right-align by default). -/
def pad3 (n : Nat) : String :=
  if n < 10 then "  " ++ toString n
  else if n < 100 then " " ++ toString n
  else toString n

/-- Two-digit zero-padded fractional part. -/
def pad2 (n : Nat) : String :=
  if n < 10 then "0" ++ toString n else toString n

/-- Rounds the rational `num / den` to the nearest integer, ties to even:
the rounding Rust's float formatting applies for `{:.2}`. -/
def roundHalfEven (num den : Nat) : Nat :=
  let q := num / den
  let r := num % den
  if 2 * r > den then q + 1
  else if 2 * r < den then q
  else if q % 2 = 0 then q else q + 1

/-- Models `format!("{:.2}", (bytes as f32) / (1024^k as f32))`: the
scaled value rendered with two decimals.  The model computes the exact
rational and rounds half-to-even; it agrees with the `f32` computation
whenever the conversion and division are exact (in particular at every
input any theorem below evaluates it on, e.g. `bytes = 1024`, `k = 1`). -/
def fmt2dec (bytes k : Nat) : String :=
  let h := roundHalfEven (bytes * 100) (1024 ^ k)
  toString (h / 100) ++ "." ++ pad2 (h % 100)

/-- Model of `fmt_size_str` from `src/lib.rs`.  The first branch formats the `u64`
`bytes` itself with `format!("{:.2} B", bytes)`; Rust ignores the
precision specifier for integral types, so the output carries no decimal
places. -/
def fmt_size_str (bytes : Nat) (flag : Bool) : String :=
  if bytes < 1024 ∨ flag then toString bytes ++ " B"
  else if bytes < 1024 ^ 2 then fmt2dec bytes 1 ++ " KiB"
  else if bytes < 1024 ^ 3 then fmt2dec bytes 2 ++ " MiB"
  else if bytes < 1024 ^ 4 then fmt2dec bytes 3 ++ " GiB"
  else fmt2dec bytes 4 ++ " TiB"

/-- The loop state of `fmt_bar`: the mutable variables `total`, `part`,
the remaining iterator (`bytesi`), `bars`, `pos`, `chr` and the bar
characters accumulated so far. -/
structure BarSt where
  total : Nat
  part : Nat
  rest : List Nat
  bars : Nat
  pos : Nat
  chr : Nat
  acc : List Char
deriving Repr, DecidableEq

/-- The fill-character palette of `fmt_bar`. -/
def blockChar (ascii_flag : Bool) : List Char :=
  if ascii_flag then [' ', '#'] else [' ', '░', '▒', '▓', '█']

/-- One iteration of the `for x in 0..width` loop of `fmt_bar`.  At a
boundary crossing (`x > pos`) the divisor of `( part * bars ) / total` is
the previous `part`; a zero divisor is a Rust panic, modelled as `none`.
`unwrap_or(&0)` on the exhausted iterator becomes `headD 0`. -/
def barStep (blocks : List Char) (levels w : Nat) (s : BarSt) (x : Nat) : Option BarSt :=
  if x > s.pos then
    if s.part = 0 then none
    else
      let total := s.part
      let part := s.rest.headD 0
      let rest := s.rest.tail
      let bars := mul64 part s.bars / total
      let pos := sub64 w bars
      let chr := s.chr + 1
      let chr := if chr = levels ∨ blocks.length ≤ chr then blocks.length - 1 else chr
      some ⟨total, part, rest, bars, pos, chr, s.acc ++ [blocks.getD chr ' ']⟩
  else
    some { s with acc := s.acc ++ [blocks.getD s.chr ' '] }

/-- Runs the `fmt_bar` loop over the remaining values of `x`. -/
def barSteps (blocks : List Char) (levels w : Nat) : List Nat → BarSt → Option BarSt
  | [], s => some s
  | x :: xs, s =>
    match barStep blocks levels w s x with
    | none => none
    | some s' => barSteps blocks levels w xs s'

/-- Model of `fmt_bar` from `src/lib.rs`.  `width as u64 - 2 - 5` wraps on `u64`;
the two `unwrap()` calls on the iterator panic on chains shorter than 2;
the divisions `( part * width ) / total` and
`( bytes[bytes.len()-1] * 100 ) / bytes[bytes.len()-2]` panic when the
divisor is zero.  Panics are `none`. -/
def fmt_bar (bytes : List Nat) (width : Nat) (ascii_flag : Bool) : Option String :=
  let w := sub64 (sub64 width 2) 5
  match bytes with
  | b0 :: b1 :: rest =>
    if b0 = 0 then none
    else
      let bars := mul64 b1 w / b0
      let s0 : BarSt := ⟨b0, b1, rest, bars, sub64 w bars, 0, []⟩
      let blocks := blockChar ascii_flag
      let levels := (b0 :: b1 :: rest).length - 1
      match barSteps blocks levels w (List.range w) s0 with
      | none => none
      | some s =>
        let l := b0 :: b1 :: rest
        let d := l.getD (l.length - 2) 0
        if d = 0 then none
        else some ("│" ++ String.mk s.acc ++ "│ " ++
          pad3 (mul64 (l.getD (l.length - 1) 0) 100 / d) ++ "%")
  | _ => none

/-- The filesystem as seen through the metadata-accessor boundary: every
path has a display name (`file_name_from_path`) and the byte count that
`try_bytes_from_path` reports for the path itself (`st_size`, or
`st_blocks*512` in usage mode — the choice of metric is the accessor's
business); a directory additionally lists its direct children in
filesystem enumeration order.  Unreadable paths and symbolic links are
boundary behaviours (size 0 resp. no listing) already absorbed into this
shape. -/
inductive FS where
  | file (name : String) (bytes : Nat)
  | dir (name : String) (bytes : Nat) (children : List FS)

/-- The display name of a path (`file_name_from_path`). -/
def FS.name : FS → String
  | .file n _ => n
  | .dir n _ _ => n

/-- The path's own on-disk footprint (`try_bytes_from_path`). -/
def FS.selfBytes : FS → Nat
  | .file _ b => b
  | .dir _ b _ => b

/- All metadata byte counts in the subtree are genuine `u64` values
(below `2^64`); true of every real filesystem. -/
mutual
def FS.boundedB : FS → Bool
  | .file _ b => decide (b < U64)
  | .dir _ b cs => decide (b < U64) && FS.boundedListB cs

def FS.boundedListB : List FS → Bool
  | [] => true
  | c :: cs => FS.boundedB c && FS.boundedListB cs
end

/-- The `Entry` struct of `src/lib.rs`.  Color resolution
(`color_from_path`) reads permission bits and the `LS_COLORS` dictionary
— external collaborators per the specification — and no claim concerns
it, so the builder below leaves `color` at `none`. -/
structure Entry where
  name : String
  bytes : Nat
  color : Option String
  last : Bool
  entries : Option (List Entry)

/-- The `Config` struct of `src/lib.rs` (root paths are passed to `run`
separately; the color dictionary is external). -/
structure Config where
  depth : Nat
  depth_flag : Bool
  bytes_flag : Bool
  usage_flag : Bool
  hiddn_flag : Bool
  ascii_flag : Bool
  aggr : Nat
  exclude : List String

/- `get_bytes` from `src/lib.rs`: the full recursive size of a subtree,
with no exclusion or hidden-name filtering (the function takes no
configuration besides the usage flag, which is part of the metadata
boundary here).  `getBytesList` is its `bytes += get_bytes(entry)`
accumulation loop, wrapping on `u64`. -/
mutual
def get_bytes : FS → Nat
  | .file _ b => b
  | .dir _ b cs => getBytesList b cs

def getBytesList (acc : Nat) : List FS → Nat
  | [] => acc
  | c :: cs => getBytesList (add64 acc (get_bytes c)) cs
end

/-- The hidden-entry test `&entry_name[..1] == "."` of `Entry::new`.
Rust slices the first **byte** of the name; if the name is empty or its
first character occupies more than one byte, byte index 1 is not a
character boundary and the slice panics (`none`).  Otherwise the test
compares the one-character prefix with `"."`. -/
def hiddenCheck (name : String) : Option Bool :=
  match name.data with
  | [] => none
  | c :: _ => if c.utf8Size = 1 then some (c = '.') else none

/-- The `vec[len-1].last = true` fix-up applied after sorting (and in
`run` to the collection's children): the last element, if any, gets its
`last` flag set. -/
def markLast (l : List Entry) : List Entry :=
  match l.getLast? with
  | none => l
  | some e => l.dropLast ++ [{ e with last := true }]

/-- The aggregation test `cfg.aggr > 0 && entry.bytes < cfg.aggr`. -/
def dropsAgg (cfg : Config) (e : Entry) : Prop :=
  0 < cfg.aggr ∧ e.bytes < cfg.aggr

instance (cfg : Config) : DecidablePred (dropsAgg cfg) :=
  fun _ => instDecidableAnd

/- `Entry::new` and its child-enumeration loop, from `src/lib.rs`.

`vec.sort_unstable_by(|a, b| b.bytes.cmp(&a.bytes))` guarantees a
permutation sorted by descending `bytes` but **not** stability, and its
tie behaviour is an unspecified implementation detail; it is therefore
modelled as a function parameter `sf`, constrained in the theorems by
`SortOk` (exactly the documented contract).

`childLoop` carries the mutable `vec`/`aggr_bytes` pair as an
accumulator.  Skips mirror the two `continue`s (exclusion by exact name,
then the hidden test, whose slice panic propagates as `none`).  In the
model every directory listing succeeds: `try_read_dir` failure is a
boundary behaviour equivalent to an empty child list plus a warning. -/
mutual
def entryNew (sf : List Entry → List Entry) (cfg : Config) (fs : FS) (depth : Nat) :
    Option Entry :=
  let dep := if cfg.depth_flag then sub8one depth else 1
  match fs with
  | .file n b => some ⟨n, get_bytes (.file n b), none, false, none⟩
  | .dir n b cs =>
    if ¬cfg.depth_flag ∨ 0 < dep then
      match childLoop sf cfg dep ([], 0) cs with
      | none => none
      | some (vec, ab) =>
        let vec := sf vec
        let vec := if 0 < ab then vec ++ [⟨"<aggregated>", ab, none, true, none⟩] else vec
        let vec := markLast vec
        some ⟨n, vec.foldl (fun a e => add64 a e.bytes) b, none, false, some vec⟩
    else
      some ⟨n, get_bytes (.dir n b cs), none, false, none⟩
termination_by structural fs

def childLoop (sf : List Entry → List Entry) (cfg : Config) (dep : Nat)
    (acc : List Entry × Nat) : List FS → Option (List Entry × Nat)
  | [] => some acc
  | c :: cs =>
    if cfg.exclude.contains c.name then childLoop sf cfg dep acc cs
    else
      match (if cfg.hiddn_flag then hiddenCheck c.name else some false) with
      | none => none
      | some true => childLoop sf cfg dep acc cs
      | some false =>
        match entryNew sf cfg c dep with
        | none => none
        | some e =>
          if dropsAgg cfg e then
            childLoop sf cfg dep (acc.1, add64 acc.2 e.bytes) cs
          else
            childLoop sf cfg dep (acc.1 ++ [e], acc.2) cs
termination_by structural l => l
end

/-- The per-child build results of a directory listing, in enumeration
order, after the name-based skips but **before** aggregation: the
reference against which the aggregation split of `childLoop` is stated. -/
def buildKids (sf : List Entry → List Entry) (cfg : Config) (dep : Nat) :
    List FS → Option (List Entry)
  | [] => some []
  | c :: cs =>
    if cfg.exclude.contains c.name then buildKids sf cfg dep cs
    else
      match (if cfg.hiddn_flag then hiddenCheck c.name else some false) with
      | none => none
      | some true => buildKids sf cfg dep cs
      | some false =>
        match entryNew sf cfg c dep with
        | none => none
        | some e =>
          match buildKids sf cfg dep cs with
          | none => none
          | some es => some (e :: es)

/-- The path loop of `run` for the multi-path case: accumulates the
per-path entries and the wrapping `bytes += e.bytes` sum.  Each root is
built with recursion budget `cfg.depth + 1` (a `u8` addition). -/
def rootsLoop (sf : List Entry → List Entry) (cfg : Config)
    (acc : List Entry × Nat) : List FS → Option (List Entry × Nat)
  | [] => some acc
  | f :: fss =>
    match entryNew sf cfg f (add8one cfg.depth) with
    | none => none
    | some e => rootsLoop sf cfg (acc.1 ++ [e], add64 acc.2 e.bytes) fss

/-- Model of `run` from `src/lib.rs`, with root paths resolved to `FS` trees: a
single path is built directly; otherwise the per-path trees become the
children of a synthetic `<collection>` entry, in command-line order,
with the final child's `last` flag set. -/
def run (sf : List Entry → List Entry) (cfg : Config) (fss : List FS) : Option Entry :=
  match fss with
  | [f] => entryNew sf cfg f (add8one cfg.depth)
  | _ =>
    match rootsLoop sf cfg ([], 0) fss with
    | none => none
    | some (es, b) => some ⟨"<collection>", b, none, false, some (markLast es)⟩

/-- Descending-size comparison: the order `sort_unstable_by` sorts by. -/
def entryGE (a b : Entry) : Prop := b.bytes ≤ a.bytes

instance : DecidableRel entryGE := fun a b => Nat.decLe b.bytes a.bytes

instance : IsTotal Entry entryGE := ⟨fun a b => Nat.le_total b.bytes a.bytes⟩

instance : IsTrans Entry entryGE := ⟨fun _ _ _ h1 h2 => Nat.le_trans h2 h1⟩

/-- The documented contract of `sort_unstable_by(|a, b| b.bytes.cmp(&a.bytes))`:
the result is a permutation of the input, sorted by descending `bytes`.
Stability is deliberately **not** part of the contract. -/
def SortOk (sf : List Entry → List Entry) : Prop :=
  ∀ l, (sf l).Perm l ∧ List.Sorted entryGE (sf l)

/-- A concrete sort satisfying `SortOk` (insertion sort by descending
bytes), used to instantiate witnesses. -/
def insSortE : List Entry → List Entry := List.insertionSort entryGE

/-- Another sort satisfying `SortOk`, which reverses the input before
sorting and hence reorders equal-size entries: a behaviour the
`sort_unstable_by` contract permits. -/
def revSortE : List Entry → List Entry := fun l => List.insertionSort entryGE l.reverse

/-- Plain (unwrapped) sum of the sizes of a list of entries. -/
def sumBytes (l : List Entry) : Nat := (l.map Entry.bytes).sum

/-- Default configuration: depth unlimited, no aggregation, no filters. -/
def cfgDefault : Config := ⟨1, false, false, false, false, false, 0, []⟩

/-- Configuration with aggregation threshold 100. -/
def cfgAggr : Config := ⟨1, false, false, false, false, false, 100, []⟩

/-- Configuration with depth limiting (`-d 1`) and exclusion of `"x"`. -/
def cfgExcl : Config := ⟨1, true, false, false, false, false, 0, ["x"]⟩

/-- Configuration with hidden-entry exclusion (`-H`). -/
def cfgHide : Config := ⟨1, false, false, false, true, false, 0, []⟩

/-- Configuration with depth limiting, hidden-entry exclusion and an
exclusion set. -/
def cfgBoth : Config := ⟨1, true, false, false, true, false, 0, ["ex"]⟩

/-! ### Basic arithmetic and list lemmas -/

theorem U64_pos : 0 < U64 := by unfold U64; positivity

theorem add64_eq_of_lt {a b : Nat} (h : a + b < U64) : add64 a b = a + b :=
  Nat.mod_eq_of_lt h

theorem add64_lt (a b : Nat) : add64 a b < U64 :=
  Nat.mod_lt _ U64_pos

theorem sub64_eq_of_le {a b : Nat} (hb : b ≤ a) (ha : a < U64) : sub64 a b = a - b := by
  unfold sub64
  rw [show a + U64 - b = (a - b) + U64 by omega, Nat.add_mod_right]
  exact Nat.mod_eq_of_lt (by omega)

theorem sub64_lt (a b : Nat) : sub64 a b < U64 :=
  Nat.mod_lt _ U64_pos

theorem sub64_zero {w : Nat} (hw : w < U64) : sub64 w 0 = w := by
  unfold sub64
  rw [Nat.sub_zero, Nat.add_mod_right]
  exact Nat.mod_eq_of_lt hw

theorem sumBytes_nil : sumBytes [] = 0 := rfl

theorem sumBytes_cons (e : Entry) (l : List Entry) :
    sumBytes (e :: l) = e.bytes + sumBytes l := by
  simp [sumBytes]

theorem sumBytes_append (l₁ l₂ : List Entry) :
    sumBytes (l₁ ++ l₂) = sumBytes l₁ + sumBytes l₂ := by
  simp [sumBytes]

theorem sumBytes_perm {l₁ l₂ : List Entry} (h : l₁.Perm l₂) :
    sumBytes l₁ = sumBytes l₂ :=
  (h.map Entry.bytes).sum_eq

/-- The `total += entry.bytes` loop over a list of entries computes the
wrapped sum. -/
theorem foldl_add64_eq (l : List Entry) : ∀ b : Nat, b < U64 →
    l.foldl (fun a e => add64 a e.bytes) b = (b + sumBytes l) % U64 := by
  induction l with
  | nil => intro b hb; simpa [sumBytes] using (Nat.mod_eq_of_lt hb).symm
  | cons e l ih =>
    intro b hb
    rw [List.foldl_cons, ih _ (add64_lt b e.bytes), sumBytes_cons]
    unfold add64
    rw [Nat.mod_add_mod, Nat.add_assoc]

/-- The `bytes += get_bytes(entry)` loop of `get_bytes` computes the
wrapped sum of the children's recursive sizes. -/
theorem getBytesList_eq : ∀ (cs : List FS) (b : Nat), b < U64 →
    getBytesList b cs = (b + (cs.map get_bytes).sum) % U64 := by
  intro cs
  induction cs with
  | nil => intro b hb; simpa using (Nat.mod_eq_of_lt hb).symm
  | cons c cs ih =>
    intro b hb
    rw [getBytesList, ih _ (add64_lt b (get_bytes c))]
    unfold add64
    rw [Nat.mod_add_mod, List.map_cons, List.sum_cons, Nat.add_assoc]

/-! ### `markLast` lemmas -/

theorem markLast_nil : markLast [] = [] := rfl

theorem markLast_concat (xs : List Entry) (y : Entry) :
    markLast (xs ++ [y]) = xs ++ [{ y with last := true }] := by
  simp [markLast, List.getLast?_concat, List.dropLast_concat]

theorem markLast_map_name (l : List Entry) :
    (markLast l).map Entry.name = l.map Entry.name := by
  rcases l.eq_nil_or_concat with h | ⟨xs, y, h⟩ <;> subst h
  · rfl
  · simp [markLast_concat]

theorem markLast_map_bytes (l : List Entry) :
    (markLast l).map Entry.bytes = l.map Entry.bytes := by
  rcases l.eq_nil_or_concat with h | ⟨xs, y, h⟩ <;> subst h
  · rfl
  · simp [markLast_concat]

theorem sumBytes_markLast (l : List Entry) : sumBytes (markLast l) = sumBytes l := by
  unfold sumBytes
  rw [markLast_map_bytes]

theorem markLast_mem (c : Entry) (l : List Entry) (h : c ∈ markLast l) :
    ∃ c₀ ∈ l, c.name = c₀.name ∧ c.bytes = c₀.bytes := by
  rcases l.eq_nil_or_concat with hl | ⟨xs, y, hl⟩ <;> subst hl
  · cases h
  · rw [List.concat_eq_append] at *
    rw [markLast_concat] at h
    rcases List.mem_append.mp h with h | h
    · exact ⟨c, List.mem_append_left _ h, rfl, rfl⟩
    · rcases List.mem_singleton.mp h with rfl
      exact ⟨y, List.mem_append_right _ (List.mem_singleton.mpr rfl), rfl, rfl⟩

theorem markLast_dropLast (l : List Entry) : (markLast l).dropLast = l.dropLast := by
  rcases l.eq_nil_or_concat with h | ⟨xs, y, h⟩ <;> subst h
  · rfl
  · simp [markLast_concat]

theorem markLast_last_true (l : List Entry) (h : l ≠ []) :
    ∃ z, (markLast l).getLast? = some z ∧ z.last = true := by
  rcases l.eq_nil_or_concat with hl | ⟨xs, y, hl⟩ <;> subst hl
  · exact absurd rfl h
  · exact ⟨{ y with last := true },
      by rw [List.concat_eq_append, markLast_concat, List.getLast?_concat], rfl⟩

/-! ### Builder unfolding lemmas -/

theorem entryNew_file (sf : List Entry → List Entry) (cfg : Config) (n : String) (b : Nat)
    (d : Nat) : entryNew sf cfg (.file n b) d = some ⟨n, b, none, false, none⟩ := rfl

theorem entryNew_dir_exp (sf : List Entry → List Entry) (cfg : Config) (n : String) (b : Nat)
    (cs : List FS) (d : Nat)
    (h : ¬cfg.depth_flag ∨ 0 < (if cfg.depth_flag then sub8one d else 1)) :
    entryNew sf cfg (.dir n b cs) d =
      match childLoop sf cfg (if cfg.depth_flag then sub8one d else 1) ([], 0) cs with
      | none => none
      | some (vec, ab) =>
        let vec1 := sf vec
        let vec2 := if 0 < ab then vec1 ++ [⟨"<aggregated>", ab, none, true, none⟩] else vec1
        let vec3 := markLast vec2
        some ⟨n, vec3.foldl (fun a e => add64 a e.bytes) b, none, false, some vec3⟩ := by
  rw [entryNew]
  simp only [if_pos h]

theorem entryNew_dir_trunc (sf : List Entry → List Entry) (cfg : Config) (n : String) (b : Nat)
    (cs : List FS) (d : Nat)
    (h : ¬(¬cfg.depth_flag ∨ 0 < (if cfg.depth_flag then sub8one d else 1))) :
    entryNew sf cfg (.dir n b cs) d = some ⟨n, get_bytes (.dir n b cs), none, false, none⟩ := by
  rw [entryNew]
  simp only [if_neg h]

theorem childLoop_nil (sf : List Entry → List Entry) (cfg : Config) (dep : Nat)
    (acc : List Entry × Nat) : childLoop sf cfg dep acc [] = some acc := rfl

theorem buildKids_nil (sf : List Entry → List Entry) (cfg : Config) (dep : Nat) :
    buildKids sf cfg dep [] = some [] := rfl

/-- The loop `childLoop` is the aggregation split of the per-child build results:
the kept entries are appended to the accumulator, and the accumulated
aggregate is the wrapped sum over the dropped entries. -/
theorem childLoop_eq_buildKids (sf : List Entry → List Entry) (cfg : Config) (dep : Nat) :
    ∀ (cs : List FS) (vec : List Entry) (ab : Nat),
    childLoop sf cfg dep (vec, ab) cs =
      (buildKids sf cfg dep cs).map (fun l =>
        (vec ++ l.filter (fun e => !decide (dropsAgg cfg e)),
         (l.filter (fun e => decide (dropsAgg cfg e))).foldl (fun a e => add64 a e.bytes) ab)) := by
  intro cs
  induction cs with
  | nil => intro vec ab; simp [childLoop, buildKids]
  | cons c cs ih =>
    intro vec ab
    rw [childLoop, buildKids]
    by_cases hex : cfg.exclude.contains c.name
    · simp only [if_pos hex]
      exact ih vec ab
    · simp only [if_neg hex]
      cases hh : (if cfg.hiddn_flag then hiddenCheck c.name else some false) with
      | none => rfl
      | some hid =>
        cases hid with
        | true => exact ih vec ab
        | false =>
          cases he : entryNew sf cfg c dep with
          | none => rfl
          | some e =>
            by_cases hd : dropsAgg cfg e
            · simp only [if_pos hd, ih]
              cases buildKids sf cfg dep cs with
              | none => rfl
              | some l =>
                simp [List.filter_cons, hd]
            · simp only [if_neg hd, ih]
              cases buildKids sf cfg dep cs with
              | none => rfl
              | some l =>
                simp [List.filter_cons, hd, List.append_assoc]

/-- Every per-child build result arises from some child of the listing. -/
theorem buildKids_mem (sf : List Entry → List Entry) (cfg : Config) (dep : Nat) :
    ∀ (cs : List FS) (l : List Entry), buildKids sf cfg dep cs = some l →
    ∀ e ∈ l, ∃ c ∈ cs, entryNew sf cfg c dep = some e := by
  intro cs
  induction cs with
  | nil =>
    intro l hl e he
    rw [buildKids_nil] at hl
    cases hl
    cases he
  | cons c cs ih =>
    intro l hl e he
    rw [buildKids] at hl
    by_cases hex : cfg.exclude.contains c.name
    · rw [if_pos hex] at hl
      obtain ⟨c', hc', he'⟩ := ih l hl e he
      exact ⟨c', List.mem_cons_of_mem _ hc', he'⟩
    · rw [if_neg hex] at hl
      cases hh : (if cfg.hiddn_flag then hiddenCheck c.name else some false) with
      | none => rw [hh] at hl; cases hl
      | some hid =>
        rw [hh] at hl
        cases hid with
        | true =>
          obtain ⟨c', hc', he'⟩ := ih l hl e he
          exact ⟨c', List.mem_cons_of_mem _ hc', he'⟩
        | false =>
          cases hb : entryNew sf cfg c dep with
          | none => rw [hb] at hl; cases hl
          | some e0 =>
            rw [hb] at hl
            cases hk : buildKids sf cfg dep cs with
            | none => rw [hk] at hl; cases hl
            | some l0 =>
              rw [hk] at hl
              cases hl
              rcases List.mem_cons.mp he with rfl | hmem
              · exact ⟨c, List.mem_cons_self _ _, hb⟩
              · obtain ⟨c', hc', he'⟩ := ih l0 hk e hmem
                exact ⟨c', List.mem_cons_of_mem _ hc', he'⟩

/-- The builder keeps the path's display name. -/
theorem entryNew_name (sf : List Entry → List Entry) (cfg : Config) (fs : FS) (d : Nat)
    (e : Entry) (h : entryNew sf cfg fs d = some e) : e.name = fs.name := by
  cases fs with
  | file n b => cases h; rfl
  | dir n b cs =>
    rw [entryNew] at h
    by_cases hc : ¬cfg.depth_flag ∨ 0 < (if cfg.depth_flag then sub8one d else 1)
    · rw [if_pos hc] at h
      cases hcl : childLoop sf cfg (if cfg.depth_flag then sub8one d else 1) ([], 0) cs with
      | none => rw [hcl] at h; cases h
      | some p => rw [hcl] at h; cases h; rfl
    · rw [if_neg hc] at h
      cases h
      rfl

/-! ### Sorting contract instances -/

theorem sortOk_insSortE : SortOk insSortE :=
  fun l => ⟨List.perm_insertionSort entryGE l, List.sorted_insertionSort entryGE l⟩

theorem sortOk_revSortE : SortOk revSortE :=
  fun l => ⟨(List.perm_insertionSort entryGE l.reverse).trans l.reverse_perm,
            List.sorted_insertionSort entryGE l.reverse⟩

/-- Decomposition of a successful expanded-directory build into the
per-child builds, the aggregation split, the sort, the aggregate
appending and the `last` fix-up. -/
theorem entryNew_dir_decomp (sf : List Entry → List Entry) (cfg : Config) (n : String)
    (b : Nat) (cs : List FS) (d : Nat) (e : Entry)
    (hexp : ¬cfg.depth_flag ∨ 0 < (if cfg.depth_flag then sub8one d else 1))
    (hb : entryNew sf cfg (.dir n b cs) d = some e) :
    ∃ built,
      buildKids sf cfg (if cfg.depth_flag then sub8one d else 1) cs = some built ∧
      e = (fun vec2 =>
            (⟨n, (markLast vec2).foldl (fun a x => add64 a x.bytes) b, none, false,
              some (markLast vec2)⟩ : Entry))
          (if 0 < (built.filter (fun x => decide (dropsAgg cfg x))).foldl
                    (fun a x => add64 a x.bytes) 0
           then sf (built.filter (fun x => !decide (dropsAgg cfg x))) ++
                [⟨"<aggregated>",
                  (built.filter (fun x => decide (dropsAgg cfg x))).foldl
                    (fun a x => add64 a x.bytes) 0, none, true, none⟩]
           else sf (built.filter (fun x => !decide (dropsAgg cfg x)))) := by
  rw [entryNew_dir_exp sf cfg n b cs d hexp,
      childLoop_eq_buildKids sf cfg (if cfg.depth_flag then sub8one d else 1) cs [] 0] at hb
  cases hk : buildKids sf cfg (if cfg.depth_flag then sub8one d else 1) cs with
  | none => rw [hk] at hb; cases hb
  | some built =>
    rw [hk] at hb
    simp only [Option.map_some, List.nil_append] at hb
    refine ⟨built, rfl, ?_⟩
    cases hb
    rfl

/-! ### Claim C2: a directory entry's size is its own footprint plus the
sum of its children's sizes -/

/-- C2.  For every directory entry built with children present, its
`size` equals the path's own on-disk footprint plus the sum of the sizes
of all entries in its children list (synthetic aggregate included).
Quantifying over every subtree `fs`, configuration and depth makes the
statement recursive: every entry with children anywhere in a built tree
is the build result of its own subtree.  The hypothesis `hof` only rules
out `u64` wrap-around of the total, impossible on a real filesystem. -/
theorem entry_size_sum (sf : List Entry → List Entry) (cfg : Config) (fs : FS) (d : Nat)
    (e : Entry) (es : List Entry)
    (hb : entryNew sf cfg fs d = some e) (hes : e.entries = some es)
    (hof : fs.selfBytes + sumBytes es < U64) :
    e.bytes = fs.selfBytes + sumBytes es := by
  cases fs with
  | file n b =>
    rw [entryNew_file] at hb
    cases hb
    cases hes
  | dir n b cs =>
    by_cases hexp : ¬cfg.depth_flag ∨ 0 < (if cfg.depth_flag then sub8one d else 1)
    · rw [entryNew_dir_exp sf cfg n b cs d hexp] at hb
      cases hcl : childLoop sf cfg (if cfg.depth_flag then sub8one d else 1) ([], 0) cs with
      | none => rw [hcl] at hb; cases hb
      | some p =>
        obtain ⟨vec, ab⟩ := p
        rw [hcl] at hb
        cases hb
        simp only at hes
        cases hes
        have hbU : b < U64 := by
          have : (FS.dir n b cs).selfBytes = b := rfl
          omega
        rw [foldl_add64_eq _ b hbU]
        exact Nat.mod_eq_of_lt hof
    · rw [entryNew_dir_trunc sf cfg n b cs d hexp] at hb
      cases hb
      cases hes

/-- Witness for C2: a directory with footprint 10 and files of sizes 5
and 7 reports 22 bytes. -/
theorem entry_size_sum_witness :
    (⟨"d", 22, none, false,
      some [⟨"b", 7, none, false, none⟩, ⟨"a", 5, none, true, none⟩]⟩ : Entry).bytes
      = (FS.dir "d" 10 [.file "a" 5, .file "b" 7]).selfBytes
        + sumBytes [⟨"b", 7, none, false, none⟩, ⟨"a", 5, none, true, none⟩] :=
  entry_size_sum insSortE cfgDefault (FS.dir "d" 10 [.file "a" 5, .file "b" 7]) 2
    ⟨"d", 22, none, false, some [⟨"b", 7, none, false, none⟩, ⟨"a", 5, none, true, none⟩]⟩
    [⟨"b", 7, none, false, none⟩, ⟨"a", 5, none, true, none⟩]
    rfl rfl (by decide)

/-! ### Claim C4: the aggregation threshold splits the children -/

/-- C4.  With aggregation threshold `T = cfg.aggr > 0`, every
individually listed (non-aggregate) child of a built directory has size
at least `T`; the synthetic `<aggregated>` child (no children of its
own) is the last child exactly when the sum of the sizes of the
below-threshold children is positive, and its size is that sum.  `built`
is the list of per-child build results before aggregation; `hname` says
no real child is itself named `<aggregated>` (otherwise the name test
below could not identify the synthetic entry), and `hof` rules out
`u64` wrap-around of the aggregate sum. -/
theorem aggregation_split (sf : List Entry → List Entry) (cfg : Config) (n : String)
    (b : Nat) (cs : List FS) (d : Nat) (e : Entry) (es built : List Entry)
    (hso : SortOk sf)
    (hT : 0 < cfg.aggr)
    (hb : entryNew sf cfg (.dir n b cs) d = some e)
    (hes : e.entries = some es)
    (hk : buildKids sf cfg (if cfg.depth_flag then sub8one d else 1) cs = some built)
    (hname : ∀ c ∈ cs, FS.name c ≠ "<aggregated>")
    (hof : sumBytes (built.filter (fun x => decide (dropsAgg cfg x))) < U64) :
    (∀ c ∈ es, c.name ≠ "<aggregated>" → cfg.aggr ≤ c.bytes) ∧
    (0 < sumBytes (built.filter (fun x => decide (dropsAgg cfg x))) →
      es.getLast? = some ⟨"<aggregated>",
        sumBytes (built.filter (fun x => decide (dropsAgg cfg x))), none, true, none⟩) ∧
    (sumBytes (built.filter (fun x => decide (dropsAgg cfg x))) = 0 →
      ∀ c ∈ es, c.name ≠ "<aggregated>") := by
  by_cases hexp : ¬cfg.depth_flag ∨ 0 < (if cfg.depth_flag then sub8one d else 1)
  case neg =>
    rw [entryNew_dir_trunc sf cfg n b cs d hexp] at hb
    cases hb
    cases hes
  obtain ⟨built', hk', he⟩ := entryNew_dir_decomp sf cfg n b cs d e hexp hb
  rw [hk] at hk'
  cases hk'
  subst he
  simp only at hes
  cases hes
  set S := sumBytes (built.filter (fun x => decide (dropsAgg cfg x))) with hS
  have hab : (built.filter (fun x => decide (dropsAgg cfg x))).foldl
      (fun a x => add64 a x.bytes) 0 = S := by
    rw [foldl_add64_eq _ 0 U64_pos, Nat.zero_add]
    exact Nat.mod_eq_of_lt hof
  rw [hab]
  -- membership in the kept part forces size at least the threshold and a
  -- name coming from a real child
  have hkept : ∀ c₀ ∈ sf (built.filter (fun x => !decide (dropsAgg cfg x))),
      cfg.aggr ≤ c₀.bytes ∧ c₀.name ≠ "<aggregated>" := by
    intro c₀ hc₀
    have hmem : c₀ ∈ built.filter (fun x => !decide (dropsAgg cfg x)) :=
      ((hso _).1.mem_iff).mp hc₀
    have hmem' : c₀ ∈ built := List.mem_of_mem_filter hmem
    constructor
    · have hpass := List.of_mem_filter hmem
      simp only [Bool.not_eq_true', decide_eq_false_iff_not] at hpass
      rw [dropsAgg] at hpass
      omega
    · obtain ⟨cfs, hcfs, hbuild⟩ := buildKids_mem sf cfg _ cs built hk c₀ hmem'
      rw [entryNew_name sf cfg cfs _ c₀ hbuild]
      exact hname cfs hcfs
  refine ⟨?_, ?_, ?_⟩
  · intro c hc hnm
    by_cases hpos : 0 < S
    · rw [if_pos hpos] at hc
      obtain ⟨c₀, hc₀, hn, hby⟩ := markLast_mem c _ hc
      rcases List.mem_append.mp hc₀ with hc₀ | hc₀
      · rw [hby]
        exact (hkept c₀ hc₀).1
      · rcases List.mem_singleton.mp hc₀ with rfl
        exact absurd hn hnm
    · rw [if_neg hpos] at hc
      obtain ⟨c₀, hc₀, hn, hby⟩ := markLast_mem c _ hc
      rw [hby]
      exact (hkept c₀ hc₀).1
  · intro hpos
    rw [if_pos hpos, markLast_concat, List.getLast?_concat]
  · intro hz c hc
    rw [if_neg (by omega)] at hc
    obtain ⟨c₀, hc₀, hn, _⟩ := markLast_mem c _ hc
    rw [hn]
    exact (hkept c₀ hc₀).2

/-- Witness for C4: threshold 100 over files of sizes 150, 10, 10 keeps
the 150-byte child and aggregates 20 bytes into a trailing
`<aggregated>` entry. -/
theorem aggregation_split_witness :
    (∀ c ∈ ([⟨"big", 150, none, false, none⟩,
             ⟨"<aggregated>", 20, none, true, none⟩] : List Entry),
        c.name ≠ "<aggregated>" → cfgAggr.aggr ≤ c.bytes) ∧
    ([⟨"big", 150, none, false, none⟩,
      ⟨"<aggregated>", 20, none, true, none⟩] : List Entry).getLast?
      = some ⟨"<aggregated>", 20, none, true, none⟩ := by
  have h := aggregation_split insSortE cfgAggr "d" 0
    [.file "big" 150, .file "s1" 10, .file "s2" 10] 2
    ⟨"d", 170, none, false,
      some [⟨"big", 150, none, false, none⟩, ⟨"<aggregated>", 20, none, true, none⟩]⟩
    [⟨"big", 150, none, false, none⟩, ⟨"<aggregated>", 20, none, true, none⟩]
    [⟨"big", 150, none, false, none⟩, ⟨"s1", 10, none, false, none⟩,
     ⟨"s2", 10, none, false, none⟩]
    sortOk_insSortE (by decide) rfl rfl rfl (by decide) (by decide)
  exact ⟨h.1, h.2.1 (by decide)⟩

/-! ### Claim C3: ordering of a directory's children -/

/-- Filtering by a predicate on names and projecting to sizes only
depends on the name and size columns. -/
theorem filter_name_map_bytes_eq (p : String → Bool) :
    ∀ (l₁ l₂ : List Entry), l₁.map Entry.name = l₂.map Entry.name →
    l₁.map Entry.bytes = l₂.map Entry.bytes →
    (l₁.filter (fun c => p c.name)).map Entry.bytes
      = (l₂.filter (fun c => p c.name)).map Entry.bytes := by
  intro l₁
  induction l₁ with
  | nil =>
    intro l₂ hn _
    cases l₂ with
    | nil => rfl
    | cons c l => cases hn
  | cons c₁ l₁ ih =>
    intro l₂ hn hb
    cases l₂ with
    | nil => cases hn
    | cons c₂ l₂ =>
      simp only [List.map_cons, List.cons.injEq] at hn hb
      simp only [List.filter_cons, hn.1, hb.1]
      by_cases hp : p c₂.name = true
      · simp [hp, hb.1, ih l₂ hn.2 hb.2]
      · simp [hp, ih l₂ hn.2 hb.2]

/-- C3 (amended).  The children of a built directory entry, leaving out
the synthetic `<aggregated>` child, are sorted in non-increasing size
order, and the `<aggregated>` child can only sit in the final position.
The relative order of equal-size children is whatever the unstable sort
produced (`SortOk` does not constrain it, matching `sort_unstable_by`). -/
theorem children_sorted_amended (sf : List Entry → List Entry) (cfg : Config) (n : String)
    (b : Nat) (cs : List FS) (d : Nat) (e : Entry) (es : List Entry)
    (hso : SortOk sf)
    (hb : entryNew sf cfg (.dir n b cs) d = some e)
    (hes : e.entries = some es)
    (hname : ∀ c ∈ cs, FS.name c ≠ "<aggregated>") :
    List.Sorted (fun x y => y ≤ x)
      ((es.filter (fun c => decide (c.name ≠ "<aggregated>"))).map Entry.bytes) ∧
    (∀ c ∈ es.dropLast, c.name ≠ "<aggregated>") := by
  by_cases hexp : ¬cfg.depth_flag ∨ 0 < (if cfg.depth_flag then sub8one d else 1)
  case neg =>
    rw [entryNew_dir_trunc sf cfg n b cs d hexp] at hb
    cases hb
    cases hes
  obtain ⟨built, hk, he⟩ := entryNew_dir_decomp sf cfg n b cs d e hexp hb
  subst he
  simp only at hes
  cases hes
  have hkept : ∀ c₀ ∈ sf (built.filter (fun x => !decide (dropsAgg cfg x))),
      c₀.name ≠ "<aggregated>" := by
    intro c₀ hc₀
    have hmem : c₀ ∈ built.filter (fun x => !decide (dropsAgg cfg x)) :=
      ((hso _).1.mem_iff).mp hc₀
    obtain ⟨cfs, hcfs, hbuild⟩ :=
      buildKids_mem sf cfg _ cs built hk c₀ (List.mem_of_mem_filter hmem)
    rw [entryNew_name sf cfg cfs _ c₀ hbuild]
    exact hname cfs hcfs
  have hsorted : List.Sorted (fun x y => y ≤ x)
      ((sf (built.filter (fun x => !decide (dropsAgg cfg x)))).map Entry.bytes) := by
    have := (hso (built.filter (fun x => !decide (dropsAgg cfg x)))).2
    rw [List.Sorted, List.pairwise_map]
    exact this
  set sfk := sf (built.filter (fun x => !decide (dropsAgg cfg x))) with hsfk
  set ab := (built.filter (fun x => decide (dropsAgg cfg x))).foldl
      (fun a x => add64 a x.bytes) 0 with habd
  have hfilter_sfk : sfk.filter (fun c => decide (c.name ≠ "<aggregated>")) = sfk :=
    List.filter_eq_self.mpr (fun c hc => decide_eq_true (hkept c hc))
  constructor
  · -- sortedness of the non-aggregate children
    by_cases hpos : 0 < ab
    · rw [if_pos hpos]
      rw [filter_name_map_bytes_eq (fun s => decide (s ≠ "<aggregated>")) _ _
        (markLast_map_name _) (markLast_map_bytes _)]
      rw [List.filter_append, hfilter_sfk]
      simp only [List.filter_cons, List.filter_nil]
      rw [if_neg (by simp)]
      simpa using hsorted
    · rw [if_neg hpos]
      rw [filter_name_map_bytes_eq (fun s => decide (s ≠ "<aggregated>")) _ _
        (markLast_map_name _) (markLast_map_bytes _)]
      rw [hfilter_sfk]
      exact hsorted
  · -- only the final position can hold the aggregate
    intro c hc
    by_cases hpos : 0 < ab
    · rw [if_pos hpos, markLast_dropLast, List.dropLast_concat] at hc
      exact hkept c hc
    · rw [if_neg hpos, markLast_dropLast] at hc
      exact hkept c ((List.dropLast_sublist _).subset hc)

/-- Witness for the amended C3: files of sizes 5, 7, 6 come out as
7, 6, 5. -/
theorem children_sorted_amended_witness :
    List.Sorted (fun x y => y ≤ x)
      ((([⟨"b", 7, none, false, none⟩, ⟨"c", 6, none, false, none⟩,
          ⟨"a", 5, none, true, none⟩] : List Entry).filter
            (fun c => decide (c.name ≠ "<aggregated>"))).map Entry.bytes) ∧
    (∀ c ∈ ([⟨"b", 7, none, false, none⟩, ⟨"c", 6, none, false, none⟩,
             ⟨"a", 5, none, true, none⟩] : List Entry).dropLast,
        c.name ≠ "<aggregated>") :=
  children_sorted_amended insSortE cfgDefault "d" 0
    [.file "a" 5, .file "b" 7, .file "c" 6] 2
    ⟨"d", 18, none, false,
      some [⟨"b", 7, none, false, none⟩, ⟨"c", 6, none, false, none⟩,
            ⟨"a", 5, none, true, none⟩]⟩
    [⟨"b", 7, none, false, none⟩, ⟨"c", 6, none, false, none⟩, ⟨"a", 5, none, true, none⟩]
    sortOk_insSortE rfl rfl (by decide)

/-- Counterexample to C3 as stated.  First: with threshold 100 over
files of sizes 150, 60, 60, 60, 60, the aggregate (240 bytes) is
appended after the 150-byte child, so the children list is not
non-increasing in size.  Second: the contract of `sort_unstable_by`
admits a sort (`revSortE`, which satisfies `SortOk`) under which two
equal-size files enumerated as `a`, `b` come out as `b`, `a`: ties need
not keep filesystem enumeration order. -/
theorem children_sorted_counterexample :
    (entryNew insSortE cfgAggr
        (.dir "d" 0 [.file "big" 150, .file "s1" 60, .file "s2" 60,
                     .file "s3" 60, .file "s4" 60]) 2
      = some ⟨"d", 390, none, false,
          some [⟨"big", 150, none, false, none⟩,
                ⟨"<aggregated>", 240, none, true, none⟩]⟩ ∧
      ¬ List.Sorted (fun x y => y ≤ x)
          (([⟨"big", 150, none, false, none⟩,
             ⟨"<aggregated>", 240, none, true, none⟩] : List Entry).map Entry.bytes)) ∧
    (SortOk revSortE ∧
      entryNew revSortE cfgDefault (.dir "d" 0 [.file "a" 5, .file "b" 5]) 2
        = some ⟨"d", 10, none, false,
            some [⟨"b", 5, none, false, none⟩, ⟨"a", 5, none, true, none⟩]⟩) :=
  ⟨⟨rfl, by decide⟩, sortOk_revSortE, rfl⟩

/-! ### Claim C5 machinery: sizes measured over the full subtree -/

theorem boundedB_dir {n : String} {b : Nat} {cs : List FS}
    (h : (FS.dir n b cs).boundedB = true) :
    b < U64 ∧ FS.boundedListB cs = true := by
  rw [FS.boundedB] at h
  simpa using h

theorem boundedListB_mem : ∀ {cs : List FS}, FS.boundedListB cs = true →
    ∀ c ∈ cs, FS.boundedB c = true := by
  intro cs
  induction cs with
  | nil => intro _ c hc; cases hc
  | cons c₀ cs ih =>
    intro h c hc
    rw [FS.boundedListB, Bool.and_eq_true] at h
    rcases List.mem_cons.mp hc with rfl | hc
    · exact h.1
    · exact ih h.2 c hc

theorem sumBytes_filter_partition (p : Entry → Bool) : ∀ l : List Entry,
    sumBytes (l.filter p) + sumBytes (l.filter (fun x => !p x)) = sumBytes l := by
  intro l
  induction l with
  | nil => rfl
  | cons e l ih =>
    by_cases hp : p e = true
    · simp only [List.filter_cons, hp, Bool.not_true, if_true, Bool.false_eq_true, if_false,
        sumBytes_cons]
      omega
    · simp only [List.filter_cons, hp, Bool.not_eq_true] at *
      simp only [List.filter_cons, hp, Bool.not_false, Bool.false_eq_true, if_false, if_true,
        sumBytes_cons]
      omega

/-- With no exclusion set and no hidden filtering, the per-child build
results cover every child, so their sizes sum to the children's
recursive sizes. -/
theorem buildKids_sum (sf : List Entry → List Entry) (cfg : Config) (dep : Nat)
    (hx : cfg.exclude = []) (hh : cfg.hiddn_flag = false) :
    ∀ (cs : List FS) (built : List Entry), buildKids sf cfg dep cs = some built →
    (∀ c ∈ cs, ∀ e, entryNew sf cfg c dep = some e → e.bytes = get_bytes c) →
    sumBytes built = (cs.map get_bytes).sum := by
  intro cs
  induction cs with
  | nil =>
    intro built hbk _
    rw [buildKids_nil] at hbk
    cases hbk
    rfl
  | cons c cs ih =>
    intro built hbk hrec
    rw [buildKids] at hbk
    rw [hx] at hbk
    simp only [List.contains_nil, Bool.false_eq_true, if_false, hh] at hbk
    cases hb : entryNew sf cfg c dep with
    | none => rw [hb] at hbk; cases hbk
    | some e =>
      rw [hb] at hbk
      cases hk : buildKids sf cfg dep cs with
      | none => rw [hk] at hbk; cases hbk
      | some l =>
        rw [hk] at hbk
        cases hbk
        rw [sumBytes_cons, List.map_cons, List.sum_cons,
          hrec c (List.mem_cons_self c cs) e hb,
          ih l hk (fun c' hc' => hrec c' (List.mem_cons_of_mem c hc'))]

/-- With no exclusion set and no hidden filtering, every built entry
reports exactly the full recursive size of its subtree, whatever the
depth budget: aggregation moves sizes into the `<aggregated>` child but
never changes the total. -/
theorem entry_bytes_full (sf : List Entry → List Entry) (cfg : Config)
    (hso : SortOk sf) (hx : cfg.exclude = []) (hh : cfg.hiddn_flag = false) :
    ∀ (fs : FS), FS.boundedB fs = true → ∀ (d : Nat) (e : Entry),
      entryNew sf cfg fs d = some e → e.bytes = get_bytes fs := by
  have main : ∀ (N : Nat) (fs : FS), sizeOf fs ≤ N → FS.boundedB fs = true →
      ∀ (d : Nat) (e : Entry), entryNew sf cfg fs d = some e → e.bytes = get_bytes fs := by
    intro N
    induction N with
    | zero =>
      intro fs hsz
      exfalso
      cases fs <;> simp at hsz
    | succ N ihN =>
      intro fs hsz hbd d e hb
      cases fs with
      | file n b =>
        rw [entryNew_file] at hb
        cases hb
        rfl
      | dir n b cs =>
        by_cases hexp : ¬cfg.depth_flag ∨ 0 < (if cfg.depth_flag then sub8one d else 1)
        case neg =>
          rw [entryNew_dir_trunc sf cfg n b cs d hexp] at hb
          cases hb
          rfl
        obtain ⟨hbU, hbl⟩ := boundedB_dir hbd
        have hszc : ∀ c ∈ cs, sizeOf c ≤ N := by
          intro c hc
          have h1 : sizeOf c < sizeOf cs := List.sizeOf_lt_of_mem hc
          have h2 : sizeOf (FS.dir n b cs) = 1 + sizeOf n + sizeOf b + sizeOf cs := by
            simp
          omega
        obtain ⟨built, hk, he⟩ := entryNew_dir_decomp sf cfg n b cs d e hexp hb
        subst he
        dsimp only
        have hrec : ∀ c ∈ cs, ∀ e', entryNew sf cfg c (if cfg.depth_flag then sub8one d else 1)
            = some e' → e'.bytes = get_bytes c := by
          intro c hc e' hb'
          exact ihN c (hszc c hc) (boundedListB_mem hbl c hc) _ e' hb'
        have hbuiltS : sumBytes built = (cs.map get_bytes).sum :=
          buildKids_sum sf cfg _ hx hh cs built hk hrec
        set dropped := built.filter (fun x => decide (dropsAgg cfg x)) with hdrop
        set kept := built.filter (fun x => !decide (dropsAgg cfg x)) with hkeep
        have hab : dropped.foldl (fun a x => add64 a x.bytes) 0 = sumBytes dropped % U64 := by
          rw [foldl_add64_eq _ 0 U64_pos, Nat.zero_add]
        have hK : sumBytes (sf kept) = sumBytes kept := sumBytes_perm (hso kept).1
        have hpart : sumBytes dropped + sumBytes kept = sumBytes built :=
          sumBytes_filter_partition _ built
        rw [foldl_add64_eq _ b hbU, sumBytes_markLast]
        have hgb : get_bytes (FS.dir n b cs) = (b + (cs.map get_bytes).sum) % U64 := by
          rw [get_bytes]
          exact getBytesList_eq cs b hbU
        rw [hgb, ← hbuiltS, ← hpart]
        by_cases hpos : 0 < dropped.foldl (fun a x => add64 a x.bytes) 0
        · rw [if_pos hpos, sumBytes_append, hK, sumBytes_cons, sumBytes_nil, hab]
          have h1 : b + (sumBytes kept + (sumBytes dropped % U64 + 0))
              = (b + sumBytes kept) + sumBytes dropped % U64 := by omega
          have h2 : b + (sumBytes dropped + sumBytes kept)
              = (b + sumBytes kept) + sumBytes dropped := by omega
          rw [h1, h2, Nat.add_mod_mod]
        · rw [if_neg hpos, hK]
          have hD0 : sumBytes dropped % U64 = 0 := by
            rw [hab] at hpos
            omega
          have h2 : b + (sumBytes dropped + sumBytes kept)
              = (b + sumBytes kept) + sumBytes dropped := by omega
          rw [h2]
          conv_rhs => rw [← Nat.add_mod_mod]
          rw [hD0, Nat.add_zero]
  intro fs hbd d e hb
  exact main (sizeOf fs) fs (Nat.le_refl _) hbd d e hb

/-! ### Claims C5 and C10: what the depth limit changes -/

/-- C5 (amended).  (1) A directory at which the display depth limit is
reached is built with `children = None` and its size computed by
`get_bytes` over the full unlimited-depth subtree; (2) likewise every
non-directory path; (3) when no exclusion or hidden filtering is active,
every built entry (expanded or not) reports the full recursive subtree
size, so the depth limit indeed only changes what is shown.  With a
nonempty exclusion set or hidden filtering the final clause of the
original claim fails (see the counterexample): filtered entries are
omitted from expanded directories but included in truncated ones. -/
theorem depth_truncation_full_subtree :
    (∀ (sf : List Entry → List Entry) (cfg : Config) (n : String) (b : Nat) (cs : List FS)
        (d : Nat) (e : Entry), cfg.depth_flag = true → sub8one d = 0 →
        entryNew sf cfg (.dir n b cs) d = some e →
        e.entries = none ∧ e.bytes = get_bytes (.dir n b cs)) ∧
    (∀ (sf : List Entry → List Entry) (cfg : Config) (n : String) (b : Nat) (d : Nat)
        (e : Entry), entryNew sf cfg (.file n b) d = some e →
        e.entries = none ∧ e.bytes = get_bytes (.file n b)) ∧
    (∀ (sf : List Entry → List Entry) (cfg : Config) (fs : FS) (d : Nat) (e : Entry),
        SortOk sf → cfg.exclude = [] → cfg.hiddn_flag = false → FS.boundedB fs = true →
        entryNew sf cfg fs d = some e → e.bytes = get_bytes fs) := by
  refine ⟨?_, ?_, ?_⟩
  · intro sf cfg n b cs d e hdf hd0 hb
    have hexp : ¬(¬cfg.depth_flag ∨ 0 < (if cfg.depth_flag then sub8one d else 1)) := by
      rw [hdf, hd0]
      simp
    rw [entryNew_dir_trunc sf cfg n b cs d hexp] at hb
    cases hb
    exact ⟨rfl, rfl⟩
  · intro sf cfg n b d e hb
    rw [entryNew_file] at hb
    cases hb
    exact ⟨rfl, rfl⟩
  · intro sf cfg fs d e hso hx hh hbd hb
    exact entry_bytes_full sf cfg hso hx hh fs hbd d e hb

/-- Witness for C5: a depth-truncated directory keeps `children = None`
with the full 8-byte subtree size even though one child is excluded, and
with no filters an expanded directory also reports the full size. -/
theorem depth_truncation_full_subtree_witness :
    ((⟨"d", 8, none, false, none⟩ : Entry).entries = none ∧
      (⟨"d", 8, none, false, none⟩ : Entry).bytes
        = get_bytes (.dir "d" 0 [.file "x" 5, .file "y" 3])) ∧
    (⟨"d", 12, none, false,
        some [⟨"b", 7, none, false, none⟩, ⟨"a", 5, none, true, none⟩]⟩ : Entry).bytes
      = get_bytes (.dir "d" 0 [.file "a" 5, .file "b" 7]) :=
  ⟨depth_truncation_full_subtree.1 insSortE cfgExcl "d" 0 [.file "x" 5, .file "y" 3] 1
      ⟨"d", 8, none, false, none⟩ rfl rfl rfl,
   depth_truncation_full_subtree.2.2 insSortE cfgDefault
      (.dir "d" 0 [.file "a" 5, .file "b" 7]) 2
      ⟨"d", 12, none, false, some [⟨"b", 7, none, false, none⟩, ⟨"a", 5, none, true, none⟩]⟩
      sortOk_insSortE rfl rfl (by decide) rfl⟩

/-- Counterexample to C5 as stated: with exclusion set `{"x"}`, the same
directory reports 8 bytes when the depth limit truncates it but 3 bytes
when expanded — the depth limit changes a measured size. -/
theorem depth_changes_measured_size :
    entryNew insSortE cfgExcl (.dir "d" 0 [.file "x" 5, .file "y" 3]) 1
      = some ⟨"d", 8, none, false, none⟩ ∧
    entryNew insSortE cfgExcl (.dir "d" 0 [.file "x" 5, .file "y" 3]) 2
      = some ⟨"d", 3, none, false, some [⟨"y", 3, none, true, none⟩]⟩ ∧
    (8 : Nat) ≠ 3 :=
  ⟨rfl, rfl, by decide⟩

/-- C10.  Here `get_bytes` applies no exclusion-set or hidden-name filtering,
so with `-d1 -H -x ex` a directory containing `.h` (4 bytes), `ex`
(6 bytes) and `ok` (1 byte) reports 11 bytes when depth-truncated (all
children counted) but 1 byte when expanded (both filtered children
omitted): the same directory reports different sizes depending on
whether the depth limit truncates it. -/
theorem truncated_size_includes_filtered :
    entryNew insSortE cfgBoth (.dir "d" 0 [.file ".h" 4, .file "ex" 6, .file "ok" 1]) 1
      = some ⟨"d", 11, none, false, none⟩ ∧
    entryNew insSortE cfgBoth (.dir "d" 0 [.file ".h" 4, .file "ex" 6, .file "ok" 1]) 2
      = some ⟨"d", 1, none, false, some [⟨"ok", 1, none, true, none⟩]⟩ ∧
    (11 : Nat) ≠ 1 :=
  ⟨rfl, rfl, by decide⟩

/-! ### Claim C1: zero values in the size chain -/

/-- A boundary crossing preserves the invariant "a zero `part` parks
`pos` at the right edge, so no further crossing happens". -/
theorem barStep_inv (blocks : List Char) (levels w : Nat) (hw : w < U64)
    (s s₁ : BarSt) (x : Nat) (hstep : barStep blocks levels w s x = some s₁)
    (hinv : s.part = 0 → s.pos = w) : s₁.part = 0 → s₁.pos = w := by
  rw [barStep] at hstep
  by_cases hgt : x > s.pos
  · rw [if_pos hgt] at hstep
    by_cases hz : s.part = 0
    · rw [if_pos hz] at hstep
      cases hstep
    · rw [if_neg hz] at hstep
      cases hstep
      intro hp0
      simp only at hp0 ⊢
      rw [hp0]
      simp only [mul64, Nat.zero_mul, Nat.zero_mod, Nat.zero_div]
      exact sub64_zero hw
  · rw [if_neg hgt] at hstep
    cases hstep
    exact hinv

/-- The `fmt_bar` loop never panics: an in-loop division by zero would
require crossing a boundary whose `part` is zero, which the invariant
rules out. -/
theorem barSteps_isSome (blocks : List Char) (levels w : Nat) (hw : w < U64) :
    ∀ (xs : List Nat) (s : BarSt), (∀ x ∈ xs, x < w) → (s.part = 0 → s.pos = w) →
    ∃ s', barSteps blocks levels w xs s = some s' := by
  intro xs
  induction xs with
  | nil => exact fun s _ _ => ⟨s, rfl⟩
  | cons x xs ih =>
    intro s hx hinv
    have hxw : x < w := hx x (List.mem_cons_self x xs)
    cases hstep : barStep blocks levels w s x with
    | none =>
      exfalso
      rw [barStep] at hstep
      by_cases hgt : x > s.pos
      · rw [if_pos hgt] at hstep
        by_cases hz : s.part = 0
        · rw [hinv hz] at hgt
          omega
        · rw [if_neg hz] at hstep
          cases hstep
      · rw [if_neg hgt] at hstep
        cases hstep
    | some s₁ =>
      rw [barSteps, hstep]
      exact ih s₁ (fun y hy => hx y (List.mem_cons_of_mem x hy))
        (barStep_inv blocks levels w hw s s₁ x hstep hinv)

/-- C1 (amended).  The bar renderer completes without panicking on every
chain of length at least 2 whose first element (the root total) and
second-to-last element (the displayed entry's immediate parent) are
nonzero; zero values elsewhere give ratio 0 — in particular the chain
`[100, 0]` yields an all-empty bar and a `0%` percentage.  When the root
or the immediate parent is zero the renderer panics on a division by
zero (see the counterexample), so the original unconditional no-panic
claim does not hold. -/
theorem fmt_bar_zero_amended :
    (∀ (b0 b1 : Nat) (rest : List Nat) (width : Nat) (a : Bool), b0 ≠ 0 →
        (b0 :: b1 :: rest).getD ((b0 :: b1 :: rest).length - 2) 0 ≠ 0 →
        ∃ out, fmt_bar (b0 :: b1 :: rest) width a = some out) ∧
    fmt_bar [100, 0] 17 true = some "│          │   0%" ∧
    fmt_bar [100, 0] 17 false = some "│          │   0%" := by
  refine ⟨?_, by decide, by decide⟩
  intro b0 b1 rest width a h0 h1
  set W := sub64 (sub64 width 2) 5 with hW
  have hw : W < U64 := sub64_lt _ _
  have hinv : ((⟨b0, b1, rest, mul64 b1 W / b0, sub64 W (mul64 b1 W / b0), 0, []⟩ : BarSt).part
        = 0) →
      (⟨b0, b1, rest, mul64 b1 W / b0, sub64 W (mul64 b1 W / b0), 0, []⟩ : BarSt).pos = W := by
    intro hp0
    simp only at hp0 ⊢
    rw [hp0]
    rw [show mul64 0 W = 0 by simp [mul64], Nat.zero_div]
    exact sub64_zero hw
  obtain ⟨s', hs'⟩ := barSteps_isSome (blockChar a) ((b0 :: b1 :: rest).length - 1) W hw
    (List.range W)
    ⟨b0, b1, rest, mul64 b1 W / b0, sub64 W (mul64 b1 W / b0), 0, []⟩
    (fun x hx => List.mem_range.mp hx) hinv
  have hmain : fmt_bar (b0 :: b1 :: rest) width a
      = some ("│" ++ String.mk s'.acc ++ "│ " ++
          pad3 (mul64 ((b0 :: b1 :: rest).getD ((b0 :: b1 :: rest).length - 1) 0) 100
            / ((b0 :: b1 :: rest).getD ((b0 :: b1 :: rest).length - 2) 0)) ++ "%") := by
    rw [fmt_bar, if_neg h0, ← hW]
    simp only [hs']
    rw [if_neg h1]
  exact ⟨_, hmain⟩

/-- Counterexample to C1 as stated: a chain in which a parent element is
zero — `[100, 0, 50]`, a zero-size directory with a displayed 50-byte
child, or a zero root total — makes `fmt_bar` panic with a division by
zero (`none`) instead of rendering. -/
theorem fmt_bar_zero_parent_panics :
    fmt_bar [100, 0, 50] 17 true = none ∧ fmt_bar [0, 50] 17 true = none := by
  exact ⟨by decide, by decide⟩

/-- Witness for the amended C1 at the chain `[100, 42]`. -/
theorem fmt_bar_zero_amended_witness :
    ∃ out, fmt_bar [100, 42] 17 true = some out :=
  fmt_bar_zero_amended.1 100 42 [] 17 true (by decide) (by decide)

/-! ### Claims C6 and C7: size formatting and the half-filled bar -/

/-- C6.  `format!("{:.2} B", bytes)` formats a `u64`, and Rust ignores
the precision specifier for integral types: 1023 bytes renders as
`"1023 B"`, without the decimal places the format string asks for, while
1024 bytes takes the `f32` KiB branch and renders as `"1.00 KiB"`. -/
theorem fmt_size_str_no_decimals_below_1024 :
    fmt_size_str 1023 false = "1023 B" ∧
    fmt_size_str 1023 false ≠ "1023.00 B" ∧
    fmt_size_str 1024 false = "1.00 KiB" ∧
    fmt_size_str 1023 true = "1023 B" ∧
    fmt_size_str 2048 true = "2048 B" := by
  exact ⟨by decide, by decide, by decide, by decide, by decide⟩

/-- C7 (amended).  On the chain `[100, 50]` with a 10-character bar
interior (width 17), the rendered bar has exactly 4 filled cells, not 5:
the crossing test `x > pos` leaves the cell at the proportional boundary
(`pos = 5`) blank, so a half share fills `bars - 1 = 4` cells.  The
percentage is `50 * 100 / 100 = 50`, right-aligned in 3 characters. -/
theorem fmt_bar_half_chain_amended :
    fmt_bar [100, 50] 17 true = some "│      ####│  50%" ∧
    ("│      ####│  50%" : String).toList.count '#' = 4 := by
  exact ⟨by decide, by decide⟩

/-- Counterexample to C7 as stated: the bar for `[100, 50]` at width 17
contains 4 filled characters, not the claimed 5 of 10. -/
theorem fmt_bar_half_chain_counterexample :
    (fmt_bar [100, 50] 17 true).map (fun s => s.toList.count '#') = some 4 ∧
    ¬ (fmt_bar [100, 50] 17 true).map (fun s => s.toList.count '#') = some 5 := by
  exact ⟨by decide, by decide⟩

/-! ### Claim C8: the multi-path `<collection>` root -/

/-- The path loop of `run` appends one entry per root, keeps the
command-line order (witnessed by the name sequence) and accumulates the
wrapped byte sum. -/
theorem rootsLoop_decomp (sf : List Entry → List Entry) (cfg : Config) :
    ∀ (fss : List FS) (acc : List Entry) (ab : Nat) (es : List Entry) (b : Nat),
    rootsLoop sf cfg (acc, ab) fss = some (es, b) →
    ∃ built, es = acc ++ built ∧ built.map Entry.name = fss.map FS.name ∧
      b = built.foldl (fun a e => add64 a e.bytes) ab := by
  intro fss
  induction fss with
  | nil =>
    intro acc ab es b h
    rw [rootsLoop] at h
    cases h
    exact ⟨[], by simp, rfl, rfl⟩
  | cons f fss ih =>
    intro acc ab es b h
    rw [rootsLoop] at h
    cases hb : entryNew sf cfg f (add8one cfg.depth) with
    | none => rw [hb] at h; cases h
    | some e =>
      rw [hb] at h
      obtain ⟨built, hes, hnames, hsum⟩ := ih (acc ++ [e]) (add64 ab e.bytes) es b h
      refine ⟨e :: built, by simpa [List.append_assoc] using hes, ?_, ?_⟩
      · rw [List.map_cons, hnames, List.map_cons, entryNew_name sf cfg f _ e hb]
      · rw [List.foldl_cons]
        exact hsum

/-- C8 (amended).  With several root paths, `run` produces a synthetic
`<collection>` entry whose size is the (wrapped) sum of the per-path
sizes and whose children are the per-path trees **in command-line
order** — `run` applies no sort to them — with the final child's `last`
flag set.  (The original claim's "sorted in descending size order" fails;
see the counterexample.) -/
theorem run_collection (sf : List Entry → List Entry) (cfg : Config) (fss : List FS)
    (e : Entry) (hlen : fss.length ≠ 1) (hr : run sf cfg fss = some e) :
    e.name = "<collection>" ∧
    ∃ es, e.entries = some (markLast es) ∧ es.map Entry.name = fss.map FS.name ∧
      (sumBytes es < U64 → e.bytes = sumBytes es) ∧
      (es ≠ [] → ∃ z, (markLast es).getLast? = some z ∧ z.last = true) := by
  rcases fss with _ | ⟨f, _ | ⟨g, fss'⟩⟩
  · have hr' : (some (⟨"<collection>", 0, none, false,
        some (markLast ([] : List Entry))⟩ : Entry) : Option Entry) = some e := hr
    cases hr'
    exact ⟨rfl, [], rfl, rfl, fun h => rfl, fun h => absurd rfl h⟩
  · exact absurd rfl hlen
  · have hr' : (match rootsLoop sf cfg ([], 0) (f :: g :: fss') with
        | none => none
        | some (es, b) =>
          some (⟨"<collection>", b, none, false, some (markLast es)⟩ : Entry)) = some e := hr
    cases hroots : rootsLoop sf cfg ([], 0) (f :: g :: fss') with
    | none => rw [hroots] at hr'; cases hr'
    | some p =>
      obtain ⟨es, b⟩ := p
      rw [hroots] at hr'
      cases hr'
      obtain ⟨built, hes, hnames, hsum⟩ := rootsLoop_decomp sf cfg (f :: g :: fss') [] 0 es b hroots
      rw [List.nil_append] at hes
      subst hes
      refine ⟨rfl, es, rfl, hnames, ?_, fun h => markLast_last_true es h⟩
      intro hlt
      show b = sumBytes es
      rw [hsum, foldl_add64_eq _ 0 U64_pos, Nat.zero_add]
      exact Nat.mod_eq_of_lt hlt

/-- Witness for the amended C8 with roots of sizes 1 and 2. -/
theorem run_collection_witness :
    (⟨"<collection>", 3, none, false,
        some [⟨"a", 1, none, false, none⟩, ⟨"b", 2, none, true, none⟩]⟩ : Entry).name
      = "<collection>" ∧
    ∃ es, (⟨"<collection>", 3, none, false,
        some [⟨"a", 1, none, false, none⟩, ⟨"b", 2, none, true, none⟩]⟩ : Entry).entries
        = some (markLast es) ∧
      es.map Entry.name = ([FS.file "a" 1, FS.file "b" 2]).map FS.name ∧
      (sumBytes es < U64 →
        (⟨"<collection>", 3, none, false,
          some [⟨"a", 1, none, false, none⟩, ⟨"b", 2, none, true, none⟩]⟩ : Entry).bytes
          = sumBytes es) ∧
      (es ≠ [] → ∃ z, (markLast es).getLast? = some z ∧ z.last = true) :=
  run_collection insSortE cfgDefault [FS.file "a" 1, FS.file "b" 2]
    ⟨"<collection>", 3, none, false,
      some [⟨"a", 1, none, false, none⟩, ⟨"b", 2, none, true, none⟩]⟩
    (by decide) rfl

/-- Counterexample to C8 as stated: two roots given in increasing size
order come out as `<collection>` children still in that order — sizes
`[1, 2]`, not sorted descending. -/
theorem run_collection_counterexample :
    run insSortE cfgDefault [FS.file "a" 1, FS.file "b" 2]
      = some ⟨"<collection>", 3, none, false,
          some [⟨"a", 1, none, false, none⟩, ⟨"b", 2, none, true, none⟩]⟩ ∧
    ([⟨"a", 1, none, false, none⟩, ⟨"b", 2, none, true, none⟩] : List Entry).map Entry.bytes
      = [1, 2] ∧
    ¬ List.Sorted (fun x y => y ≤ x) [1, 2] := by
  exact ⟨rfl, rfl, by decide⟩

/-! ### Claim C9: the hidden-name test slices the first byte -/

/-- If the listing contains a child that survives the exclusion check
but whose name makes the hidden-name byte slice panic, the whole child
loop panics. -/
theorem childLoop_bad_hidden (sf : List Entry → List Entry) (cfg : Config) (dep : Nat)
    (hh : cfg.hiddn_flag = true) :
    ∀ (cs : List FS) (acc : List Entry × Nat),
    (∃ c ∈ cs, cfg.exclude.contains c.name = false ∧ hiddenCheck c.name = none) →
    childLoop sf cfg dep acc cs = none := by
  intro cs
  induction cs with
  | nil =>
    rintro acc ⟨c, hc, -, -⟩
    cases hc
  | cons c₀ cs ih =>
    rintro acc ⟨c, hc, hex, hhc⟩
    rw [childLoop]
    rcases List.mem_cons.mp hc with rfl | hc
    · rw [if_neg (by rw [hex]; exact Bool.false_ne_true), hh]
      simp only [if_true, hhc]
    · by_cases hex0 : cfg.exclude.contains c₀.name
      · rw [if_pos hex0]
        exact ih acc ⟨c, hc, hex, hhc⟩
      · rw [if_neg hex0, hh]
        simp only [if_true]
        cases hh0 : hiddenCheck c₀.name with
        | none => rfl
        | some hid =>
          cases hid with
          | true => exact ih acc ⟨c, hc, hex, hhc⟩
          | false =>
            cases hb : entryNew sf cfg c₀ dep with
            | none => rfl
            | some e =>
              show (if dropsAgg cfg e then childLoop sf cfg dep (acc.1, add64 acc.2 e.bytes) cs
                    else childLoop sf cfg dep (acc.1 ++ [e], acc.2) cs) = none
              by_cases hd : dropsAgg cfg e
              · rw [if_pos hd]
                exact ih _ ⟨c, hc, hex, hhc⟩
              · rw [if_neg hd]
                exact ih _ ⟨c, hc, hex, hhc⟩

/-- C9.  With hidden-entry exclusion on, building a directory that
directly contains a non-excluded child whose name the hidden test cannot
slice — `hiddenCheck` returns `none` exactly when the name is empty or
starts with a multi-byte UTF-8 character, so `&entry_name[..1]` is not
on a character boundary — panics (`none`) instead of filtering or
keeping the entry. -/
theorem hidden_multibyte_panics (sf : List Entry → List Entry) (cfg : Config) (n : String)
    (b : Nat) (cs : List FS) (d : Nat)
    (hh : cfg.hiddn_flag = true)
    (hexp : ¬cfg.depth_flag ∨ 0 < (if cfg.depth_flag then sub8one d else 1))
    (hbad : ∃ c ∈ cs, cfg.exclude.contains c.name = false ∧ hiddenCheck c.name = none) :
    entryNew sf cfg (.dir n b cs) d = none := by
  rw [entryNew_dir_exp sf cfg n b cs d hexp,
    childLoop_bad_hidden sf cfg _ hh cs ([], 0) hbad]

/-- Witness for C9: a directory holding a 5-byte file whose name is the
two-byte character `é` panics under `-H`. -/
theorem hidden_multibyte_panics_witness :
    entryNew insSortE cfgHide (.dir "d" 0 [.file "é" 5]) 2 = none :=
  hidden_multibyte_panics insSortE cfgHide "d" 0 [.file "é" 5] 2 rfl (by decide)
    ⟨.file "é" 5, List.mem_singleton.mpr rfl, by decide, by decide⟩

end Dutree
